import Mathlib

/-!
Verification of the core of the edge-tts deno port against its
natural-language specification.

Shallow embedding conventions:
* bytes are modelled as `Nat` (values 0–255 in practice);
* byte strings (`Uint8Array`) are `List Nat`;
* JavaScript strings are `List Char` where the character level matters,
  or `List Nat` of character codes where only codes matter;
* fallible code returns `Except`/`Option`.
-/

namespace EdgeTTS

/-! ## Text chunker (helpers.ts, splitTextByByteLength) -/

/-- The downward space scan of helpers.ts lines 54–60:
`for (let i = byteLength; i >= 0; i--) if (text[i] === 32) { splitAt = i; break; }`.
`spaceScan text i dflt` scans indices `i, i-1, …, 0` and returns the first
(i.e. largest) index holding a space byte (32), else the default. -/
def spaceScan (text : List Nat) : Nat → Nat → Nat
  | 0, dflt => if text[0]? = some 32 then 0 else dflt
  | i + 1, dflt => if text[i + 1]? = some 32 then i + 1 else spaceScan text i dflt

/-- The ampersand scan of helpers.ts lines 62–71: over indices
`0 ≤ i < bound`, `ampIndex` becomes `i` at a `&` byte (38) and is reset
to none at a `;` byte (59). -/
def ampScan (text : List Nat) (bound : Nat) : Option Nat :=
  (List.range bound).foldl
    (fun acc i =>
      if text[i]? = some 38 then some i
      else if text[i]? = some 59 then none
      else acc)
    none

/-- The split-point computation of helpers.ts lines 52–80 for one loop
iteration: the space scan seeded with `byteLength`, overridden by a
pending ampersand index, and the final `if (splitAt === 0) splitAt = byteLength`. -/
def splitAtPoint (text : List Nat) (B : Nat) : Nat :=
  let s1 := spaceScan text B B
  let s2 :=
    match ampScan text s1 with
    | some a => a
    | none => s1
  if s2 = 0 then B else s2

/-- The main chunking loop of helpers.ts lines 52–92.  While the text is
longer than `B`, slice off `splitAtPoint` bytes (yielding the slice when
non-empty, as the source's `if (chunk.length > 0)` does) and continue;
after the loop, yield the non-empty remainder.  The structural `fuel`
argument bounds the number of iterations; since each iteration removes
at least one byte whenever `0 < B` (`splitAtPoint_pos`), `fuel =
text.length` is always sufficient (`splitLoopF_spec`), and the source
rejects `B ≤ 0` before the loop. -/
def splitLoopF (B : Nat) : Nat → List Nat → List (List Nat)
  | 0, text => if text.length = 0 then [] else [text]
  | fuel + 1, text =>
    if B < text.length then
      let p := splitAtPoint text B
      let chunk := text.take p
      (if 0 < chunk.length then [chunk] else []) ++ splitLoopF B fuel (text.drop p)
    else if text.length = 0 then [] else [text]

/-- helpers.ts splitTextByByteLength: rejects `byteLength ≤ 0` with an
error, then runs the chunking loop. -/
def splitTextByByteLength (text : List Nat) (B : Nat) :
    Except String (List (List Nat)) :=
  if B ≤ 0 then .error "byteLength must be greater than 0"
  else .ok (splitLoopF B text.length text)

theorem spaceScan_le (text : List Nat) (i dflt : Nat) :
    spaceScan text i dflt ≤ max i dflt := by
  induction i with
  | zero =>
    simp only [spaceScan]
    split <;> omega
  | succ n ih =>
    simp only [spaceScan]
    split
    · omega
    · have := ih
      omega

theorem ampScan_lt (text : List Nat) (bound a : Nat)
    (h : ampScan text bound = some a) : a < bound := by
  have key : ∀ (l : List Nat) (acc : Option Nat),
      (∀ i ∈ l, i < bound) → (∀ b, acc = some b → b < bound) →
      ∀ b, l.foldl
        (fun acc i =>
          if text[i]? = some 38 then some i
          else if text[i]? = some 59 then none
          else acc) acc = some b → b < bound := by
    intro l
    induction l with
    | nil =>
      intro acc _ hacc b hb
      exact hacc b hb
    | cons x xs ih =>
      intro acc hmem hacc b hb
      simp only [List.foldl_cons] at hb
      refine ih _ (fun i hi => hmem i (List.mem_cons_of_mem x hi)) ?_ b hb
      intro c hc
      split at hc
      · cases hc
        exact hmem x (List.mem_cons_self x xs)
      · split at hc
        · cases hc
        · exact hacc c hc
  exact key (List.range bound) none (fun i hi => List.mem_range.mp hi)
    (fun b hb => by cases hb) a h

theorem splitAtPoint_pos (text : List Nat) (B : Nat) (hB : 0 < B) :
    0 < splitAtPoint text B := by
  rcases hamp : ampScan text (spaceScan text B B) with _ | a <;>
    simp only [splitAtPoint, hamp] <;> split <;> omega

theorem splitAtPoint_le (text : List Nat) (B : Nat) :
    splitAtPoint text B ≤ B := by
  have hs1 : spaceScan text B B ≤ B := by
    have := spaceScan_le text B B
    omega
  rcases hamp : ampScan text (spaceScan text B B) with _ | a
  · simp only [splitAtPoint, hamp]
    split <;> omega
  · have := ampScan_lt text (spaceScan text B B) a hamp
    simp only [splitAtPoint, hamp]
    split <;> omega

theorem splitLoopF_spec (B : Nat) (hB : 0 < B) :
    ∀ (fuel : Nat) (text : List Nat), text.length ≤ fuel →
      (splitLoopF B fuel text).flatten = text ∧
        ∀ c ∈ splitLoopF B fuel text, 0 < c.length ∧ c.length ≤ B := by
  intro fuel
  induction fuel with
  | zero =>
    intro text hfuel
    have htext : text = [] := List.length_eq_zero.mp (Nat.le_zero.mp hfuel)
    subst htext
    simp [splitLoopF]
  | succ n ih =>
    intro text hfuel
    rw [splitLoopF]
    by_cases hlen : B < text.length
    · have hp : 0 < splitAtPoint text B := splitAtPoint_pos text B hB
      have hple : splitAtPoint text B ≤ B := splitAtPoint_le text B
      have hchunk : 0 < (text.take (splitAtPoint text B)).length := by
        simp only [List.length_take]
        omega
      simp only [hlen, if_true, hchunk]
      have ih2 := ih (text.drop (splitAtPoint text B))
        (by simp only [List.length_drop]; omega)
      constructor
      · rw [List.singleton_append, List.flatten_cons, ih2.1]
        exact List.take_append_drop _ text
      · intro c hc
        rcases List.mem_cons.mp hc with rfl | hc
        · constructor
          · exact hchunk
          · simp only [List.length_take]
            omega
        · exact ih2.2 c hc
    · simp only [hlen, if_false]
      by_cases h0 : text.length = 0
      · simp only [h0, if_true]
        refine ⟨?_, by intro c hc; cases hc⟩
        have : text = [] := List.length_eq_zero.mp h0
        simp [this]
      · simp only [h0, if_false]
        refine ⟨by simp, ?_⟩
        intro c hc
        rcases List.mem_singleton.mp hc with rfl
        omega

/-- C1: for every input text and every byte budget `B > 0`, the
chunker succeeds, its emitted slices concatenate in order to exactly
the input byte sequence, and every emitted slice has byte length ≤ B. -/
theorem chunker_concat_bounded (text : List Nat) (B : Nat) (hB : 0 < B) :
    ∃ chunks, splitTextByByteLength text B = Except.ok chunks ∧
      chunks.flatten = text ∧ ∀ c ∈ chunks, c.length ≤ B := by
  refine ⟨splitLoopF B text.length text, ?_, ?_, ?_⟩
  · simp only [splitTextByByteLength]
    rw [if_neg (by omega)]
  · exact (splitLoopF_spec B hB text.length text le_rfl).1
  · intro c hc
    exact ((splitLoopF_spec B hB text.length text le_rfl).2 c hc).2

theorem chunker_concat_bounded_witness :
    ∃ chunks,
      splitTextByByteLength [104, 105, 32, 104, 105] 3 = Except.ok chunks ∧
        chunks.flatten = [104, 105, 32, 104, 105] ∧
        ∀ c ∈ chunks, c.length ≤ 3 :=
  chunker_concat_bounded [104, 105, 32, 104, 105] 3 (by decide)

/-- C10: for every input text and every byte budget `B > 0`, every
slice emitted by the chunker is non-empty (byte length ≥ 1); in
particular an input that is all spaces, or one that ends exactly at a
split point, never yields an empty chunk. -/
theorem chunker_chunks_nonempty (text : List Nat) (B : Nat) (hB : 0 < B)
    (chunks : List (List Nat))
    (hch : splitTextByByteLength text B = Except.ok chunks) :
    ∀ c ∈ chunks, 0 < c.length := by
  have hok : splitTextByByteLength text B =
      Except.ok (splitLoopF B text.length text) := by
    simp only [splitTextByByteLength]
    rw [if_neg (by omega)]
  rw [hok] at hch
  cases hch
  intro c hc
  exact ((splitLoopF_spec B hB text.length text le_rfl).2 c hc).1

theorem chunker_chunks_nonempty_witness :
    0 < List.length ([32, 32] : List Nat) :=
  chunker_chunks_nonempty [32, 32, 32, 32] 2 (by decide)
    [[32, 32], [32, 32]] rfl [32, 32] (List.mem_cons_self _ _)

/-! ## Word-boundary metadata and the offset state
(websocket_client.ts, parseMetadata and streamChunk) -/

/-- One element of an inbound audio.metadata frame's Metadata array:
its Type together with, for WordBoundary, the `Data.Offset`,
`Data.Duration` (100-ns ticks, non-negative) and `Data.text.Text`. -/
inductive MetaElem where
  | wordBoundary (offset duration : Nat) (text : String)
  | sessionEnd
  | other (ty : String)
deriving DecidableEq

/-- The error kinds of errors/tts_error.ts raised by the metadata path. -/
inductive TTSErr where
  | unknownResponse (msg : String)
  | unexpectedResponse (msg : String)
deriving DecidableEq

/-- The offset-related part of the mutable CommunicateState of
websocket_client.ts (lines 98–103): both fields start at 0. -/
structure CommState where
  offsetCompensation : Nat
  lastDurationOffset : Nat
deriving DecidableEq

/-- An emitted WordBoundary record (TTSChunk). -/
structure WordBoundary where
  offset : Nat
  duration : Nat
  text : String
deriving DecidableEq

/-- websocket_client.ts parseMetadata (lines 271–286): scan the Metadata
array in order; the first WordBoundary element returns a record with
`offset = Data.Offset + offsetCompensation`; SessionEnd elements are
skipped (`continue`); any other type raises UnknownResponse; if the scan
falls off the end, UnexpectedResponse is raised. -/
def parseMetadata (comp : Nat) : List MetaElem → Except TTSErr WordBoundary
  | [] => .error (.unexpectedResponse "No WordBoundary metadata found")
  | .wordBoundary o d t :: _ => .ok ⟨o + comp, d, t⟩
  | .sessionEnd :: rest => parseMetadata comp rest
  | .other ty :: _ => .error (.unknownResponse ("Unknown metadata type: " ++ ty))

/-- websocket_client.ts streamChunk lines 344–348: handling of one
audio.metadata text frame.  parseMetadata runs with the current
compensation; on success the record is yielded and lastDurationOffset
becomes `metadata.offset + metadata.duration`, i.e. the emitted
(compensated) offset plus the duration. -/
def metadataFrameStep (s : CommState) (elems : List MetaElem) :
    Except TTSErr (CommState × WordBoundary) :=
  match parseMetadata s.offsetCompensation elems with
  | .error e => .error e
  | .ok m => .ok ({ s with lastDurationOffset := m.offset + m.duration }, m)

/-- websocket_client.ts streamChunk lines 349–351: on a turn.end frame,
`offsetCompensation ← lastDurationOffset + 8_750_000`. -/
def turnEndStep (s : CommState) : CommState :=
  { s with offsetCompensation := s.lastDurationOffset + 8750000 }

/-- One chunk's audio.metadata frames processed in order by
metadataFrameStep, collecting the emitted records.  Audio frames do not
touch the offset state and are omitted from the model. -/
def runChunkFrames (s : CommState) : List (List MetaElem) →
    Except TTSErr (CommState × List WordBoundary)
  | [] => .ok (s, [])
  | f :: fs =>
    match metadataFrameStep s f with
    | .error e => .error e
    | .ok (s1, m) =>
      match runChunkFrames s1 fs with
      | .error e => .error e
      | .ok (s2, out) => .ok (s2, m :: out)

/-- One successful chunk as driven by streamChunk: its audio.metadata
frames in order, then the turn.end update. -/
def runChunk (s : CommState) (frames : List (List MetaElem)) :
    Except TTSErr (CommState × List WordBoundary) :=
  match runChunkFrames s frames with
  | .error e => .error e
  | .ok (s1, out) => .ok (turnEndStep s1, out)

/-- A whole job as driven by stream(): chunks processed sequentially
against the shared CommunicateState, outputs concatenated in order. -/
def runJob (s : CommState) : List (List (List MetaElem)) →
    Except TTSErr (CommState × List WordBoundary)
  | [] => .ok (s, [])
  | c :: cs =>
    match runChunk s c with
    | .error e => .error e
    | .ok (s1, out1) =>
      match runJob s1 cs with
      | .error e => .error e
      | .ok (s2, out2) => .ok (s2, out1 ++ out2)

/-- The initial CommunicateState (websocket_client.ts lines 98–103). -/
def initialState : CommState := ⟨0, 0⟩

/-- The raw (uncompensated) offset and duration of the WordBoundary a
frame would contribute: the first WordBoundary element of its array. -/
def frameWB : List MetaElem → Option (Nat × Nat)
  | [] => none
  | .wordBoundary o d _ :: _ => some (o, d)
  | .sessionEnd :: rest => frameWB rest
  | .other _ :: _ => none

/-- The service-side (raw) word-boundary offsets of one chunk. -/
def chunkRawOffsets (frames : List (List MetaElem)) : List Nat :=
  frames.filterMap (fun f => (frameWB f).map Prod.fst)

/-- The value of lastDurationOffset after a run of WordBoundary frames
with raw (offset, duration) pairs `ps`, compensation `c` and initial
value `v`: each frame overwrites it with `offset + c + duration`. -/
def lastLdo (c v : Nat) (ps : List (Nat × Nat)) : Nat :=
  ps.foldl (fun _ q => q.1 + c + q.2) v

theorem lastLdo_cons (c v : Nat) (q : Nat × Nat) (ps : List (Nat × Nat)) :
    lastLdo c v (q :: ps) = lastLdo c (q.1 + c + q.2) ps := rfl

theorem le_lastLdo (c : Nat) (ps : List (Nat × Nat)) :
    ∀ (v a : Nat), a ≤ v → (∀ q ∈ ps, a ≤ q.1 + c + q.2) →
      a ≤ lastLdo c v ps := by
  induction ps with
  | nil => intro v a hv _; exact hv
  | cons q rest ih =>
    intro v a _ hall
    rw [lastLdo_cons]
    exact ih _ a (hall q (List.mem_cons_self q rest))
      (fun r hr => hall r (List.mem_cons_of_mem q hr))

theorem mem_le_lastLdo (c : Nat) (ps : List (Nat × Nat)) :
    ∀ (v : Nat), List.Pairwise (· ≤ ·) (ps.map Prod.fst) →
      ∀ p ∈ ps, p.1 + c ≤ lastLdo c v ps := by
  induction ps with
  | nil => intro v _ p hp; cases hp
  | cons q rest ih =>
    intro v hpw p hp
    rw [lastLdo_cons]
    simp only [List.map_cons, List.pairwise_cons] at hpw
    rcases List.mem_cons.mp hp with rfl | hp
    · refine le_lastLdo c rest _ _ (by omega) ?_
      intro r hr
      have := hpw.1 r.1 (List.mem_map_of_mem Prod.fst hr)
      omega
    · exact ih _ hpw.2 p hp

theorem parseMetadata_ok_shape (comp : Nat) (elems : List MetaElem)
    (m : WordBoundary) (h : parseMetadata comp elems = .ok m) :
    ∃ o d, frameWB elems = some (o, d) ∧ m.offset = o + comp ∧
      m.duration = d := by
  induction elems with
  | nil => simp [parseMetadata] at h
  | cons e rest ih =>
    cases e with
    | wordBoundary o d t =>
      refine ⟨o, d, rfl, ?_, ?_⟩ <;>
        · simp only [parseMetadata, Except.ok.injEq] at h
          subst h
          rfl
    | sessionEnd =>
      simp only [parseMetadata] at h
      simpa [frameWB] using ih h
    | other ty => simp [parseMetadata] at h

theorem runChunkFrames_spec :
    ∀ (frames : List (List MetaElem)) (s s1 : CommState)
      (out : List WordBoundary),
      runChunkFrames s frames = .ok (s1, out) →
      ∃ ps : List (Nat × Nat),
        frames.map frameWB = ps.map some ∧
        out.map WordBoundary.offset =
          ps.map (fun p => p.1 + s.offsetCompensation) ∧
        s1.offsetCompensation = s.offsetCompensation ∧
        s1.lastDurationOffset =
          lastLdo s.offsetCompensation s.lastDurationOffset ps := by
  intro frames
  induction frames with
  | nil =>
    intro s s1 out h
    simp only [runChunkFrames, Except.ok.injEq, Prod.mk.injEq] at h
    exact ⟨[], by simp, by simp [← h.2], by simp [← h.1], by simp [← h.1, lastLdo]⟩
  | cons f fs ih =>
    intro s s1 out h
    simp only [runChunkFrames] at h
    split at h
    · cases h
    rename_i sa m hstep
    split at h
    · cases h
    rename_i s2 out2 hrec
    simp only [Except.ok.injEq, Prod.mk.injEq] at h
    obtain ⟨hs1, hout⟩ := h
    simp only [metadataFrameStep] at hstep
    split at hstep
    · cases hstep
    rename_i m0 hpm
    simp only [Except.ok.injEq, Prod.mk.injEq] at hstep
    obtain ⟨hsa, hm⟩ := hstep
    obtain ⟨o, d, hfw, hoff, hdur⟩ := parseMetadata_ok_shape _ _ _ hpm
    obtain ⟨ps, hmap, hout2, hcomp, hldo⟩ := ih sa s2 out2 hrec
    have hsacomp : sa.offsetCompensation = s.offsetCompensation := by
      rw [← hsa]
    have hsaldo : sa.lastDurationOffset = o + s.offsetCompensation + d := by
      rw [← hsa]
      simp [hoff, hdur]
    refine ⟨(o, d) :: ps, ?_, ?_, ?_, ?_⟩
    · simp [hfw, hmap]
    · rw [← hout]
      simp only [List.map_cons]
      rw [← hm, hoff, hout2, hsacomp]
    · rw [← hs1, hcomp, hsacomp]
    · rw [← hs1, hldo, lastLdo_cons, hsacomp, hsaldo]

theorem chunkRawOffsets_of_map_some :
    ∀ (frames : List (List MetaElem)) (ps : List (Nat × Nat)),
      frames.map frameWB = ps.map some →
      chunkRawOffsets frames = ps.map Prod.fst := by
  intro frames
  induction frames with
  | nil =>
    intro ps h
    have : ps = [] := by
      cases ps with
      | nil => rfl
      | cons p ps => simp at h
    subst this
    rfl
  | cons f fs ih =>
    intro ps h
    cases ps with
    | nil => simp at h
    | cons p ps =>
      simp only [List.map_cons, List.cons.injEq] at h
      simp only [chunkRawOffsets, List.filterMap_cons, h.1, Option.map_some,
        List.map_cons]
      exact congrArg _ (ih ps h.2)

theorem runChunk_spec (frames : List (List MetaElem)) (s s1 : CommState)
    (out : List WordBoundary) (h : runChunk s frames = .ok (s1, out))
    (hch : List.Chain' (· ≤ ·) (chunkRawOffsets frames))
    (hinv : s.lastDurationOffset ≤ s.offsetCompensation) :
    List.Chain' (· ≤ ·) (out.map WordBoundary.offset) ∧
    (∀ m ∈ out, s.lastDurationOffset ≤ m.offset) ∧
    (∀ m ∈ out, m.offset ≤ s1.lastDurationOffset) ∧
    s.lastDurationOffset ≤ s1.lastDurationOffset ∧
    s1.lastDurationOffset ≤ s1.offsetCompensation := by
  simp only [runChunk] at h
  split at h
  · cases h
  rename_i sa outa hrun
  simp only [Except.ok.injEq, Prod.mk.injEq] at h
  obtain ⟨hs1, houtq⟩ := h
  rw [← houtq]
  obtain ⟨ps, hmap, hout, hcomp, hldo⟩ := runChunkFrames_spec _ _ _ _ hrun
  rw [chunkRawOffsets_of_map_some _ _ hmap] at hch
  have hs1ldo : s1.lastDurationOffset = sa.lastDurationOffset := by
    rw [← hs1]; rfl
  have hs1comp : s1.offsetCompensation = sa.lastDurationOffset + 8750000 := by
    rw [← hs1]; rfl
  have hmemoff : ∀ m ∈ outa, ∃ p ∈ ps,
      m.offset = p.1 + s.offsetCompensation := by
    intro m hm
    have : m.offset ∈ ps.map (fun p => p.1 + s.offsetCompensation) := by
      rw [← hout]
      exact List.mem_map_of_mem WordBoundary.offset hm
    obtain ⟨p, hp, hpe⟩ := List.mem_map.mp this
    exact ⟨p, hp, hpe.symm⟩
  have hpw : List.Pairwise (· ≤ ·) (ps.map Prod.fst) :=
    List.chain'_iff_pairwise.mp hch
  refine ⟨?_, ?_, ?_, ?_, ?_⟩
  · rw [hout]
    refine (List.chain'_map _).mpr ?_
    exact ((List.chain'_map Prod.fst).mp hch).imp
      fun _ _ hab => Nat.add_le_add_right hab _
  · intro m hm
    obtain ⟨p, _, hpe⟩ := hmemoff m hm
    omega
  · intro m hm
    obtain ⟨p, hp, hpe⟩ := hmemoff m hm
    rw [hs1ldo, hldo, hpe]
    exact mem_le_lastLdo _ ps _ hpw p hp
  · rw [hs1ldo, hldo]
    refine le_lastLdo _ ps _ _ le_rfl ?_
    intro q _
    omega
  · omega

theorem runJob_spec :
    ∀ (chunks : List (List (List MetaElem))) (s s2 : CommState)
      (out : List WordBoundary),
      runJob s chunks = .ok (s2, out) →
      (∀ chunk ∈ chunks, List.Chain' (· ≤ ·) (chunkRawOffsets chunk)) →
      s.lastDurationOffset ≤ s.offsetCompensation →
      List.Chain' (· ≤ ·) (out.map WordBoundary.offset) ∧
      (∀ m ∈ out, s.lastDurationOffset ≤ m.offset) ∧
      (∀ m ∈ out, m.offset ≤ s2.lastDurationOffset) ∧
      s.lastDurationOffset ≤ s2.lastDurationOffset := by
  intro chunks
  induction chunks with
  | nil =>
    intro s s2 out h _ _
    simp only [runJob, Except.ok.injEq, Prod.mk.injEq] at h
    obtain ⟨hs, hout⟩ := h
    subst hs
    subst hout
    exact ⟨List.chain'_nil, by simp, by simp, le_rfl⟩
  | cons ch cs ih =>
    intro s s2 out h hch hinv
    simp only [runJob] at h
    split at h
    · cases h
    rename_i s1 out1 hc
    split at h
    · cases h
    rename_i s2a out2 hj
    simp only [Except.ok.injEq, Prod.mk.injEq] at h
    obtain ⟨hs2, hout⟩ := h
    rw [← hs2, ← hout]
    obtain ⟨hch1, hlo1, hhi1, hmono1, hinv1⟩ :=
      runChunk_spec ch s s1 out1 hc (hch ch (List.mem_cons_self ch cs)) hinv
    obtain ⟨hch2, hlo2, hhi2, hmono2⟩ := ih s1 s2a out2 hj
      (fun c hcm => hch c (List.mem_cons_of_mem ch hcm)) hinv1
    have hldo12 : s1.lastDurationOffset ≤ s2a.lastDurationOffset := hmono2
    refine ⟨?_, ?_, ?_, ?_⟩
    · rw [List.map_append]
      refine List.chain'_append.mpr ⟨hch1, hch2, ?_⟩
      intro x hx y hy
      obtain ⟨_, hxl⟩ := List.mem_getLast?_eq_getLast hx
      have hxm : x ∈ out1.map WordBoundary.offset := hxl ▸ List.getLast_mem _
      obtain ⟨m1, hm1, hm1e⟩ := List.mem_map.mp hxm
      have hym : y ∈ out2.map WordBoundary.offset := List.mem_of_mem_head? hy
      obtain ⟨m2, hm2, hm2e⟩ := List.mem_map.mp hym
      have h1 := hhi1 m1 hm1
      have h2 := hlo2 m2 hm2
      omega
    · intro m hm
      rcases List.mem_append.mp hm with hm | hm
      · exact hlo1 m hm
      · have := hlo2 m hm
        omega
    · intro m hm
      rcases List.mem_append.mp hm with hm | hm
      · have := hhi1 m hm
        omega
      · exact hhi2 m hm
    · omega

/-- C2: for every successful job whose chunks carry service-side
non-decreasing raw WordBoundary offsets, the offsets of the emitted
word-boundary records are non-decreasing over the whole output
sequence, across chunk boundaries as well as within a chunk: the
turn.end update of offsetCompensation and the per-WordBoundary update
of lastDurationOffset together maintain this. -/
theorem job_offsets_monotone (chunks : List (List (List MetaElem)))
    (s2 : CommState) (out : List WordBoundary)
    (hok : runJob initialState chunks = .ok (s2, out))
    (hch : ∀ chunk ∈ chunks, List.Chain' (· ≤ ·) (chunkRawOffsets chunk)) :
    List.Chain' (· ≤ ·) (out.map WordBoundary.offset) :=
  (runJob_spec chunks initialState s2 out hok hch le_rfl).1

theorem job_offsets_monotone_witness :
    List.Chain' (· ≤ ·)
      (List.map WordBoundary.offset
        [⟨10, 5, "a"⟩, ⟨20, 5, "b"⟩, ⟨8750025, 5, "c"⟩]) :=
  job_offsets_monotone
    [[[MetaElem.wordBoundary 10 5 "a"],
      [MetaElem.sessionEnd, MetaElem.wordBoundary 20 5 "b"]],
     [[MetaElem.wordBoundary 0 5 "c"]]]
    ⟨17500030, 8750030⟩
    [⟨10, 5, "a"⟩, ⟨20, 5, "b"⟩, ⟨8750025, 5, "c"⟩]
    rfl
    (by
      intro chunk hcm
      simp only [List.mem_cons, List.not_mem_nil, or_false] at hcm
      rcases hcm with rfl | rfl <;> simp [chunkRawOffsets, frameWB])

/-- C5 counterexample: in state with offsetCompensation 5, processing a
WordBoundary with Data.Offset 10 and Data.Duration 3 emits offset
10 + 5 = 15 (as claimed) but updates lastDurationOffset to the
compensated 15 + 3 = 18, not to the uncompensated 10 + 3 = 13 as
claimed. -/
theorem lastDurationOffset_update_cex :
    metadataFrameStep ⟨5, 0⟩ [MetaElem.wordBoundary 10 3 "w"] =
      Except.ok (⟨5, 18⟩, ⟨15, 3, "w"⟩) ∧ (18 : Nat) ≠ 10 + 3 :=
  ⟨rfl, by decide⟩

/-- C5 (amended): for every WordBoundary metadata element processed in
state with offset compensation c, the emitted record's offset equals
`Data.Offset + c`, and lastDurationOffset is then updated to the
compensated value `Data.Offset + c + Data.Duration` (the update does
include c, since it reuses the emitted record's offset). -/
theorem wordBoundary_emit_and_ldo_update (s : CommState)
    (o d : Nat) (t : String) (rest : List MetaElem) :
    metadataFrameStep s (MetaElem.wordBoundary o d t :: rest) =
      Except.ok (⟨s.offsetCompensation, o + s.offsetCompensation + d⟩,
        ⟨o + s.offsetCompensation, d, t⟩) := rfl

/-- C9 counterexample: an audio.metadata frame whose Metadata array is
the single element SessionEnd is not ignored: the driver raises
UnexpectedResponse instead of emitting nothing and continuing. -/
theorem sessionEnd_only_raises_cex :
    metadataFrameStep ⟨0, 0⟩ [MetaElem.sessionEnd] =
      Except.error (.unexpectedResponse "No WordBoundary metadata found") :=
  rfl

theorem parseMetadata_all_sessionEnd (comp : Nat) :
    ∀ elems : List MetaElem, (∀ e ∈ elems, e = MetaElem.sessionEnd) →
      parseMetadata comp elems =
        .error (.unexpectedResponse "No WordBoundary metadata found") := by
  intro elems
  induction elems with
  | nil => intro _; rfl
  | cons e rest ih =>
    intro hall
    have he : e = MetaElem.sessionEnd := hall e (List.mem_cons_self e rest)
    subst he
    simp only [parseMetadata]
    exact ih fun x hx => hall x (List.mem_cons_of_mem _ hx)

/-- C9 (amended): for every inbound audio.metadata frame whose Metadata
array is non-empty and consists only of SessionEnd elements, the
session driver does not ignore the frame: parseMetadata skips the
SessionEnd elements, falls off the end of the array, and raises
UnexpectedResponse ("No WordBoundary metadata found"), aborting the
chunk instead of continuing in the STREAMING state. -/
theorem sessionEnd_only_unexpectedResponse (s : CommState)
    (elems : List MetaElem) (hne : elems ≠ [])
    (hall : ∀ e ∈ elems, e = MetaElem.sessionEnd) :
    metadataFrameStep s elems =
      Except.error (.unexpectedResponse "No WordBoundary metadata found") := by
  simp only [metadataFrameStep, parseMetadata_all_sessionEnd _ elems hall]

theorem sessionEnd_only_unexpectedResponse_witness :
    metadataFrameStep ⟨0, 0⟩ [MetaElem.sessionEnd, MetaElem.sessionEnd] =
      Except.error (.unexpectedResponse "No WordBoundary metadata found") :=
  sessionEnd_only_unexpectedResponse ⟨0, 0⟩
    [MetaElem.sessionEnd, MetaElem.sessionEnd] (by decide) (by decide)

/-! ## DRM token generation and clock skew (utils/drm.ts) -/

/-- drm.ts WIN_EPOCH: seconds from 1601-01-01 UTC to 1970-01-01 UTC. -/
def WIN_EPOCH : Nat := 11644473600

/-- drm.ts generateSecMsGec lines 52–61: the wall clock (whole seconds;
the source uses a float, exact on integral values) plus accumulated
skew, shifted to the 1601 epoch, floored to a 300-second boundary, and
converted to 100-ns ticks. -/
def secMsGecTicks (unixSeconds : Nat) (skew : Int) : Int :=
  let t : Int := unixSeconds + skew + WIN_EPOCH
  (t - t % 300) * 10000000

/-- Char codes of the decimal representation of a natural number, as
produced by JavaScript template interpolation of an integral number. -/
def decimalCodes (n : Nat) : List Nat :=
  (Nat.toDigits 10 n).map Char.toNat

/-- The lowercase hex digit char code of a value < 16, as produced by
JavaScript Number.toString(16). -/
def hexDigitCode (n : Nat) : Nat :=
  if n < 10 then 48 + n else 87 + n

/-- drm.ts line 76: `.toString(16).padStart(2, "0")` of a byte value:
exactly two lowercase hex digit codes. -/
def byteHexCodes (n : Nat) : List Nat :=
  [hexDigitCode (n / 16), hexDigitCode (n % 16)]

/-- drm.ts lines 70–78: the debugging pseudo-hash used by the
synchronous generateSecMsGec: 64 rounds, round i contributing the two
hex digits of `(chars[i % chars.length] * (i + 1)) % 256`. -/
def pseudoHash (chars : List Nat) : List Nat :=
  ((List.range 64).map fun i =>
    byteHexCodes (chars.getD (i % chars.length) 0 * (i + 1) % 256)).flatten

/-- JavaScript String.prototype.toUpperCase on an ASCII char code. -/
def upperCode (c : Nat) : Nat :=
  if 97 ≤ c ∧ c ≤ 122 then c - 32 else c

/-- drm.ts TRUSTED_CLIENT_TOKEN as char codes. -/
def TRUSTED_CLIENT_TOKEN : List Nat :=
  ("6A5AA1D4EAFF4E9FB37E23D68491D6F4").toList.map Char.toNat

/-- drm.ts generateSecMsGec (lines 50–81): the tick count is rendered
in decimal, concatenated with the fixed trusted client token, run
through the 64-round pseudo-hash, and uppercased.  The result is the
returned token as a list of character codes. -/
def generateSecMsGec (unixSeconds : Nat) (skew : Int) : List Nat :=
  (pseudoHash (decimalCodes (secMsGecTicks unixSeconds skew).toNat ++
    TRUSTED_CLIENT_TOKEN)).map upperCode

/-- Modelled from the spec: §4.1 requires the token to be the uppercase
hexadecimal SHA-256 digest of the concatenation, and a SHA-256 digest
is 32 bytes, i.e. 64 hex characters. -/
def sha256HexDigestLength : Nat := 64

theorem generateSecMsGec_length (u : Nat) (sk : Int) :
    (generateSecMsGec u sk).length = 128 := by
  simp only [generateSecMsGec, pseudoHash, List.length_map,
    List.length_flatten, List.map_map]
  have hconst : ∀ i : Nat, (List.length ∘ fun i =>
      byteHexCodes ((decimalCodes (secMsGecTicks u sk).toNat ++
        TRUSTED_CLIENT_TOKEN).getD
          (i % (decimalCodes (secMsGecTicks u sk).toNat ++
            TRUSTED_CLIENT_TOKEN).length) 0 * (i + 1) % 256)) i = 2 :=
    fun i => rfl
  rw [List.map_congr_left fun i _ => hconst i]
  decide

/-- C3: the synchronous token generation path does not return an
uppercase hexadecimal SHA-256 digest: its output has 128 characters
(64 pseudo-hash rounds of two hex digits each), while a SHA-256 hex
digest has 64; evaluated at wall clock 0 and skew 0 (ticks
116444736000000000). -/
theorem generateSecMsGec_not_sha256 :
    (generateSecMsGec 0 0).length = 128 ∧
      (generateSecMsGec 0 0).length ≠ sha256HexDigestLength :=
  ⟨generateSecMsGec_length 0 0, by
    rw [generateSecMsGec_length]
    decide⟩

/-- drm.ts adjustClockSkewSeconds (lines 18–20): add a delta to the
process-wide skew.  Present in the source but never invoked by
handleClientResponseError. -/
def adjustClockSkewSeconds (skew delta : Int) : Int := skew + delta

/-- drm.ts handleClientResponseError (lines 87–94): the body is a stub
(`TODO: 实现时钟偏差调整逻辑`): on a 403-status error it returns without
touching the skew and without reading any server date; any other error
is rethrown.  The process-wide skew is threaded explicitly; the server
date header carried by the failure is accepted as an argument to
reflect the claim's input, but the source never reads it. -/
def handleClientResponseError (skew : Int) (status : Option Nat)
    (_serverDateSeconds : Option Int) : Except Unit Int :=
  if status = some 403 then .ok skew
  else .error ()

/-- C8: contrary to the claim, an authentication failure (status 403)
carrying a server date leaves the accumulated skew unchanged: with
skew 0 and a server date 600 seconds ahead, the handler returns skew 0,
whereas the claimed adjustment would make it 0 + 600 = 600. -/
theorem handleClientResponseError_stub :
    handleClientResponseError 0 (some 403) (some 600) = Except.ok 0 ∧
      adjustClockSkewSeconds 0 600 = 600 ∧ (0 : Int) ≠ 600 :=
  ⟨rfl, rfl, by decide⟩

/-! ## Reconnect policy (utils/reconnect.ts) and connect
(core/websocket_client.ts) -/

/-- The observable outcome of ReconnectManager.execute: the success
flag and the reported attempt count of the returned ReconnectResult
(delays, timing and event callbacks are dropped). -/
structure ReconnectOutcome where
  success : Bool
  attempts : Nat
deriving DecidableEq

/-- reconnect.ts execute (lines 51–122), with `op k` telling whether
the k-th (0-based) invocation of the operation succeeds.  The loop
runs while `attempts < maxRetries`; `remaining = maxRetries - attempts`
is the structural loop bound.  Each iteration invokes the operation
once; on success it returns `{success := true, attempts := attempts+1}`,
on failure it increments `attempts` and, once `attempts ≥ maxRetries`,
returns `{success := false, attempts}` — as a VALUE, not an exception.
The second component counts invocations of the operation. -/
def executeFrom (op : Nat → Bool) (maxRetries : Nat) :
    Nat → Nat → ReconnectOutcome × Nat
  | 0, attempts => (⟨false, attempts⟩, 0)
  | remaining + 1, attempts =>
    if op attempts then (⟨true, attempts + 1⟩, 1)
    else if maxRetries ≤ attempts + 1 then (⟨false, attempts + 1⟩, 1)
    else
      let r := executeFrom op maxRetries remaining (attempts + 1)
      (r.1, r.2 + 1)

/-- reconnect.ts execute entered with `attempts = 0`. -/
def execute (op : Nat → Bool) (maxRetries : Nat) : ReconnectOutcome × Nat :=
  executeFrom op maxRetries maxRetries 0

/-- websocket_client.ts connect (lines 143–191): it awaits
`reconnectManager.execute(...)` and DISCARDS the returned
ReconnectResult, so connect itself resolves successfully no matter how
the attempts went; no WebSocketError escapes it. -/
def connect (op : Nat → Bool) (maxRetries : Nat) : Except String Unit :=
  let _r := execute op maxRetries
  .ok ()

theorem executeFrom_all_fail (op : Nat → Bool) (maxRetries : Nat)
    (hop : ∀ k, op k = false) :
    ∀ remaining attempts, attempts + remaining = maxRetries →
      executeFrom op maxRetries remaining attempts =
        (⟨false, maxRetries⟩, remaining) := by
  intro remaining
  induction remaining with
  | zero =>
    intro attempts hsum
    have ha : attempts = maxRetries := by omega
    subst ha
    rfl
  | succ r ih =>
    intro attempts hsum
    simp only [executeFrom, hop attempts, Bool.false_eq_true, if_false]
    by_cases hguard : maxRetries ≤ attempts + 1
    · rw [if_pos hguard]
      have h1 : attempts + 1 = maxRetries := by omega
      have h2 : r = 0 := by omega
      subst h2
      rw [h1]
    · rw [if_neg hguard]
      rw [ih (attempts + 1) (by omega)]

/-- C7: when every channel-open attempt fails, execute invokes the open
operation exactly maxRetries times and returns a failed
ReconnectOutcome with attempts = maxRetries — but connect discards
that result and resolves successfully, so no WebSocketError reaches
the consumer. -/
theorem reconnect_exhaustion_not_propagated (maxRetries : Nat)
    (op : Nat → Bool) (hop : ∀ k, op k = false) :
    execute op maxRetries = (⟨false, maxRetries⟩, maxRetries) ∧
      connect op maxRetries = Except.ok () :=
  ⟨executeFrom_all_fail op maxRetries hop maxRetries 0 (by omega), rfl⟩

theorem reconnect_exhaustion_not_propagated_witness :
    execute (fun _ => false) 3 = (⟨false, 3⟩, 3) ∧
      connect (fun _ => false) 3 = Except.ok () :=
  reconnect_exhaustion_not_propagated 3 (fun _ => false) (fun _ => rfl)

/-! ## Binary frame decoding (websocket_client.ts streamChunk lines
355–387 with helpers.ts parseHeadersAndData) -/

/-- helpers.ts parseHeadersAndData at the byte level: the bytes decoded
as header text are `data.slice(0, headerLength)`. -/
def headerSliceBytes (data : List Nat) (H : Nat) : List Nat := data.take H

/-- helpers.ts parseHeadersAndData at the byte level: the returned body
is `data.slice(headerLength + 2)`. -/
def bodySliceBytes (data : List Nat) (H : Nat) : List Nat := data.drop (H + 2)

/-- websocket_client.ts streamChunk lines 356–366: decoding of one
inbound binary frame, at the byte level.  Frames shorter than 2 bytes
are rejected; `H = (view[0] << 8) | view[1]`; `H > length` is rejected;
then the WHOLE view — the two length bytes included — is passed to
parseHeadersAndData, so the header text is bytes [0, H) and the body is
bytes [H+2, end).  (The textual parsing of the header bytes into a map
is modelled separately for the text path.) -/
def decodeBinaryFrame (view : List Nat) :
    Except String (List Nat × List Nat) :=
  if view.length < 2 then .error "Binary message too short"
  else
    let headerLength := view.getD 0 0 * 256 + view.getD 1 0
    if headerLength > view.length then
      .error "Header length greater than message length"
    else .ok (headerSliceBytes view headerLength,
      bodySliceBytes view headerLength)

/-- Modelled from the spec (the C4 claim): the header text should be
bytes [2, 2+H). -/
def specBinaryHeaderSlice (data : List Nat) (H : Nat) : List Nat :=
  (data.drop 2).take H

/-- Modelled from the spec (the C4 claim): the body should be bytes
[2+H+2, end). -/
def specBinaryBodySlice (data : List Nat) (H : Nat) : List Nat :=
  data.drop (2 + H + 2)

/-- C4 counterexample: the frame [0, 1, 65, 13, 10, 66] has H = 1; the
decoder takes [0] (bytes [0, 1), the first length byte) as header text
and [13, 10, 66] (bytes [3, 6)) as body, not bytes [2, 3) = [65] and
bytes [5, 6) = [66] as the claim states. -/
theorem binary_frame_slices_cex :
    decodeBinaryFrame [0, 1, 65, 13, 10, 66] =
      Except.ok ([0], [13, 10, 66]) ∧
    specBinaryHeaderSlice [0, 1, 65, 13, 10, 66] 1 = [65] ∧
    ([0] : List Nat) ≠ [65] ∧
    specBinaryBodySlice [0, 1, 65, 13, 10, 66] 1 = [66] ∧
    ([13, 10, 66] : List Nat) ≠ [66] :=
  ⟨rfl, rfl, by decide, rfl, by decide⟩

/-- C4 (amended): for every inbound binary frame of length ≥ 2 whose
first two bytes encode big-endian header length H with H not exceeding
the message length, the decoder takes bytes [0, H) — which include the
two length-prefix bytes — as the header text and bytes [H+2, end) as
the binary body. -/
theorem binary_frame_decode (view : List Nat) (h2 : 2 ≤ view.length)
    (H : Nat) (hH : H = view.getD 0 0 * 256 + view.getD 1 0)
    (hle : H ≤ view.length) :
    decodeBinaryFrame view = Except.ok (view.take H, view.drop (H + 2)) := by
  simp only [decodeBinaryFrame, headerSliceBytes, bodySliceBytes, ← hH]
  rw [if_neg (by omega), if_neg (by omega)]

theorem binary_frame_decode_witness :
    decodeBinaryFrame [0, 1, 65, 13, 10, 66] =
      Except.ok (List.take 1 [0, 1, 65, 13, 10, 66],
        List.drop (1 + 2) [0, 1, 65, 13, 10, 66]) :=
  binary_frame_decode [0, 1, 65, 13, 10, 66] (by decide) 1 (by decide)
    (by decide)

/-! ## Text frame codec
Outbound building: ssml.ts generateRequestHeaders /
websocket_client.ts sendConfigCommand, both of the shape
`[headerLines..., "", body].join("\r\n")`.
Inbound decoding: websocket_client.ts streamChunk lines 334–341 with
helpers.ts findPattern and parseHeadersAndData.  Text frames are
modelled at the character level; the source round-trips the string
through UTF-8 (TextEncoder/TextDecoder), which is injective and
byte-per-char on the ASCII frames at issue, so character positions
coincide with byte positions. -/

/-- The CRLF separator, as characters. -/
def CRLF : List Char := ['\r', '\n']

/-- helpers.ts DELIMITER (CRLF-CRLF), as characters. -/
def DELIM : List Char := ['\r', '\n', '\r', '\n']

/-- helpers.ts findPattern (lines 20–32): linear scan of the start
positions `0 ≤ i ≤ data.length - pattern.length`, returning the first
position where the pattern matches (JavaScript returns -1, modelled as
none; when the pattern is longer than the data the JS loop bound is
negative and nothing is scanned, which the single always-failing probe
of the truncated Nat subtraction reproduces). -/
def findPattern (data pat : List Char) : Option Nat :=
  (List.range (data.length - pat.length + 1)).find?
    (fun i => pat.isPrefixOf (data.drop i))

theorem find?_map_succ (l : List Nat) (f : Nat → Bool) :
    (l.map Nat.succ).find? f = (l.find? (fun i => f (i + 1))).map Nat.succ := by
  induction l with
  | nil => rfl
  | cons a t ih =>
    simp only [List.map_cons, List.find?_cons]
    cases hfa : f (a + 1) <;> simp [Nat.succ_eq_add_one, hfa, ih]

theorem findPattern_nil (pat : List Char) (hpat : pat ≠ []) :
    findPattern [] pat = none := by
  cases pat with
  | nil => cases hpat rfl
  | cons p ps =>
    simp [findPattern, List.isPrefixOf]

theorem findPattern_cons (c : Char) (data pat : List Char) :
    findPattern (c :: data) pat =
      if pat.isPrefixOf (c :: data) then some 0
      else (findPattern data pat).map (· + 1) := by
  have hlen : (c :: data).length - pat.length + 1 =
      ((data.length + 1) - pat.length) + 1 := by
    simp [List.length_cons]
  rw [findPattern, hlen, List.range_succ_eq_map, List.find?_cons]
  cases hp0 : pat.isPrefixOf (List.drop 0 (c :: data)) with
  | true =>
    simp only [List.drop_zero] at hp0
    rw [if_pos hp0]
  | false =>
    simp only [List.drop_zero] at hp0
    rw [if_neg (by simp [hp0])]
    rw [find?_map_succ]
    have harg : ∀ i : Nat,
        (pat.isPrefixOf (List.drop (i + 1) (c :: data))) =
          (pat.isPrefixOf (List.drop i data)) := by
      intro i
      rfl
    by_cases hle : pat.length ≤ data.length
    · have : (data.length + 1) - pat.length =
          (data.length - pat.length) + 1 := by omega
      rw [this]
      rw [findPattern]
      have hfun : (fun i => pat.isPrefixOf (List.drop (i + 1) (c :: data))) =
          (fun i => pat.isPrefixOf (List.drop i data)) := funext harg
      rw [hfun]
    · have h1 : (data.length + 1) - pat.length = 0 := by omega
      rw [h1]
      have h2 : findPattern data pat = none := by
        rw [findPattern, List.find?_eq_none]
        intro i _
        cases hq : pat.isPrefixOf (List.drop i data) with
        | false => simp
        | true =>
          exfalso
          have hpre := List.isPrefixOf_iff_prefix.mp hq
          have := hpre.length_le
          have := List.length_drop i data ▸ this
          omega
      rw [h2]
      simp

theorem findPattern_match_at_zero (pat rest : List Char) (hpat : pat ≠ []) :
    findPattern (pat ++ rest) pat = some 0 := by
  cases pat with
  | nil => cases hpat rfl
  | cons p ps =>
    rw [List.cons_append, findPattern_cons]
    rw [if_pos (List.isPrefixOf_iff_prefix.mpr
      (by rw [← List.cons_append]; exact List.prefix_append (p :: ps) rest))]

theorem findPattern_append_left (l rest : List Char) (p0 : Char)
    (pat' : List Char) (hl : p0 ∉ l) :
    findPattern (l ++ rest) (p0 :: pat') =
      (findPattern rest (p0 :: pat')).map (· + l.length) := by
  induction l with
  | nil =>
    simp only [List.nil_append, List.length_nil]
    cases findPattern rest (p0 :: pat') <;> simp
  | cons c t ih =>
    have hc : c ≠ p0 := by
      intro h
      subst h
      exact hl (List.mem_cons_self c t)
    have hpre : ¬((p0 :: pat').isPrefixOf (c :: (t ++ rest)) = true) := by
      intro hq
      have := (List.cons_prefix_cons.mp (List.isPrefixOf_iff_prefix.mp hq)).1
      exact hc this.symm
    rw [List.cons_append, findPattern_cons, if_neg hpre,
      ih fun h => hl (List.mem_cons_of_mem c h)]
    cases findPattern rest (p0 :: pat') <;>
      simp [List.length_cons, Nat.add_assoc]

theorem findPattern_none (l : List Char) (p0 : Char) (pat' : List Char)
    (hl : p0 ∉ l) : findPattern l (p0 :: pat') = none := by
  have h := findPattern_append_left l [] p0 pat' hl
  rw [List.append_nil] at h
  rw [h, findPattern_nil _ (List.cons_ne_nil p0 pat')]
  rfl

/-- The `text.split("\r\n")` step of helpers.ts parseHeadersAndData,
as repeated first-occurrence splitting on the two-character CRLF
sequence.  The structural `fuel` bounds the number of splits; every
split consumes at least two characters, so `fuel = s.length` is always
sufficient. -/
def splitOnCRLFF : Nat → List Char → List (List Char)
  | 0, s => [s]
  | fuel + 1, s =>
    match findPattern s CRLF with
    | none => [s]
    | some i => s.take i :: splitOnCRLFF fuel (s.drop (i + 2))

/-- String.prototype.split("\r\n") of the header block text. -/
def splitOnCRLF (s : List Char) : List (List Char) :=
  splitOnCRLFF s.length s

/-- JavaScript String.prototype.trim whitespace test (ASCII part). -/
def isJSSpace (c : Char) : Bool :=
  c == ' ' || c == '\t' || c == '\n' || c == '\r' ||
    c == '\x0b' || c == '\x0c'

/-- JavaScript String.prototype.trim: strip leading and trailing
whitespace. -/
def trim (l : List Char) : List Char :=
  ((l.dropWhile isJSSpace).reverse.dropWhile isJSSpace).reverse

/-- JavaScript `line.split(":", 2)` destructured as `[key, value]`:
the first colon-free field, and (when a colon occurs) the second
colon-limited field; the limit 2 discards everything after a second
colon. -/
def splitLimit2Colon (line : List Char) :
    List Char × Option (List Char) :=
  let k := line.takeWhile (· != ':')
  if k.length = line.length then (line, none)
  else (k, some ((line.drop (k.length + 1)).takeWhile (· != ':')))

/-- JavaScript object property assignment `headers[key] = value` on a
string-keyed object: overwrite in place when the key exists, else
append (objects preserve insertion order). -/
def upsert (m : List (List Char × List Char)) (k v : List Char) :
    List (List Char × List Char) :=
  if m.any (fun p => p.1 == k) then
    m.map (fun p => if p.1 == k then (k, v) else p)
  else m ++ [(k, v)]

/-- helpers.ts parseHeadersAndData lines 116–121: each line is split at
colons with limit 2; when both the key and the value are non-empty
(JavaScript truthiness of `key && value`), the trimmed key and trimmed
value are stored in the headers object. -/
def parseHeaderLines (lines : List (List Char)) :
    List (List Char × List Char) :=
  lines.foldl
    (fun m line =>
      match splitLimit2Colon line with
      | (_, none) => m
      | (k, some v) =>
        if k ≠ [] ∧ v ≠ [] then upsert m (trim k) (trim v) else m)
    []

/-- One `Key:Value` header line. -/
def headerLine (kv : List Char × List Char) : List Char :=
  kv.1 ++ ':' :: kv.2

/-- The outbound text-frame builder (ssml.ts generateRequestHeaders,
websocket_client.ts sendConfigCommand): header lines, a blank line and
the body, joined with CRLF — `[lines..., "", body].join("\r\n")`.
(speech.config appends one further empty element, i.e. a trailing CRLF
inside the body; it does not change the header/body framing.) -/
def encodeTextFrame (hs : List (List Char × List Char))
    (body : List Char) : List Char :=
  List.intercalate CRLF (hs.map headerLine ++ [[], body])

/-- websocket_client.ts streamChunk lines 334–341 with helpers.ts
parseHeadersAndData: locate the first CRLF-CRLF (error when absent),
parse everything before it as the header block, and return
`data.slice(headerEnd + 2)` — not `headerEnd + 4` — as the body. -/
def decodeTextFrame (data : List Char) :
    Except String (List (List Char × List Char) × List Char) :=
  match findPattern data DELIM with
  | none => .error "Invalid message format: no header delimiter found"
  | some headerEnd =>
    .ok (parseHeaderLines (splitOnCRLF (data.take headerEnd)),
      data.drop (headerEnd + 2))

/-- The well-formedness of one header pair under which the codec can
round-trip it: key and value non-empty, colon-free and CR-free, and
invariant under trimming. -/
def goodKV (kv : List Char × List Char) : Prop :=
  kv.1 ≠ [] ∧ kv.2 ≠ [] ∧ (':') ∉ kv.1 ∧ (':') ∉ kv.2 ∧
    ('\r') ∉ kv.1 ∧ ('\r') ∉ kv.2 ∧ trim kv.1 = kv.1 ∧ trim kv.2 = kv.2

theorem intercalate_singleton (sep a : List Char) :
    List.intercalate sep [a] = a := by
  simp [List.intercalate]

theorem intercalate_cons₂ (sep a b : List Char) (t : List (List Char)) :
    List.intercalate sep (a :: b :: t) =
      a ++ (sep ++ List.intercalate sep (b :: t)) := by
  simp [List.intercalate, List.intersperse]

theorem findPattern_CRLF_append (l rest : List Char) (hl : ('\r') ∉ l) :
    findPattern (l ++ rest) CRLF =
      (findPattern rest CRLF).map (· + l.length) := by
  simp only [CRLF]
  exact findPattern_append_left l rest '\r' ['\n'] hl

theorem findPattern_CRLF_self (rest : List Char) :
    findPattern (CRLF ++ rest) CRLF = some 0 := by
  simp only [CRLF]
  exact findPattern_match_at_zero _ rest (by simp)

theorem findPattern_CRLF_none (l : List Char) (hl : ('\r') ∉ l) :
    findPattern l CRLF = none := by
  simp only [CRLF]
  exact findPattern_none l '\r' ['\n'] hl

/-- An intercalation of CR-free lines always starts with its first
line. -/
theorem intercalate_head (l2 : List Char) (t2 : List (List Char)) :
    ∃ z, List.intercalate CRLF (l2 :: t2) = l2 ++ z := by
  cases t2 with
  | nil => exact ⟨[], by rw [intercalate_singleton, List.append_nil]⟩
  | cons a b =>
    exact ⟨CRLF ++ List.intercalate CRLF (a :: b), intercalate_cons₂ _ _ _ _⟩

/-- The first CRLF-CRLF of a well-formed text frame sits exactly at the
end of the header block: the block is an intercalation of non-empty
CR-free lines by single CRLFs, so no earlier window can match. -/
theorem findPattern_delim_intercalate :
    ∀ (lines : List (List Char)), lines ≠ [] →
      (∀ l ∈ lines, ('\r') ∉ l ∧ l ≠ []) →
      ∀ tail0 : List Char,
        findPattern (List.intercalate CRLF lines ++
            ('\r' :: '\n' :: '\r' :: '\n' :: tail0)) DELIM =
          some (List.intercalate CRLF lines).length := by
  intro lines
  induction lines with
  | nil => intro h; cases h rfl
  | cons l t ih =>
    intro _ hgood tail0
    simp only [DELIM]
    cases t with
    | nil =>
      rw [intercalate_singleton]
      rw [show ('\r' :: '\n' :: '\r' :: '\n' :: tail0) =
        ['\r', '\n', '\r', '\n'] ++ tail0 from rfl]
      rw [findPattern_append_left l _ '\r' ['\n', '\r', '\n']
        (hgood l (by simp)).1]
      rw [findPattern_match_at_zero _ _ (by simp)]
      simp
    | cons l2 t2 =>
      obtain ⟨z, hz⟩ := intercalate_head l2 t2
      obtain ⟨c2, l2x, hl2⟩ :=
        List.exists_cons_of_ne_nil (hgood l2 (by simp)).2
      have hc2 : c2 ≠ '\r' := by
        intro h
        exact (hgood l2 (by simp)).1 (h ▸ hl2 ▸ List.mem_cons_self c2 l2x)
      rw [intercalate_cons₂, List.append_assoc]
      rw [findPattern_append_left l _ '\r' ['\n', '\r', '\n']
        (hgood l (by simp)).1]
      rw [show (CRLF ++ List.intercalate CRLF (l2 :: t2)) ++
          ('\r' :: '\n' :: '\r' :: '\n' :: tail0) =
        '\r' :: '\n' :: (List.intercalate CRLF (l2 :: t2) ++
          ('\r' :: '\n' :: '\r' :: '\n' :: tail0)) from by
        simp [CRLF]]
      rw [findPattern_cons, if_neg ?hpre1, findPattern_cons, if_neg ?hpre2]
      case hpre1 =>
        intro hq
        have hp := List.isPrefixOf_iff_prefix.mp hq
        have hp2 := (List.cons_prefix_cons.mp hp).2
        have hp3 := (List.cons_prefix_cons.mp hp2).2
        rw [hz, hl2] at hp3
        rw [List.cons_append, List.cons_append] at hp3
        exact hc2 ((List.cons_prefix_cons.mp hp3).1).symm
      case hpre2 =>
        intro hq
        have hp := List.isPrefixOf_iff_prefix.mp hq
        have := (List.cons_prefix_cons.mp hp).1
        simp at this
      have hihx := ih (by simp)
        (fun x hx => hgood x (List.mem_cons_of_mem _ hx)) tail0
      simp only [DELIM] at hihx
      rw [hihx]
      simp [CRLF]
      omega

/-- Splitting on CRLF undoes intercalation by CRLF when the lines are
CR-free. -/
theorem splitOnCRLFF_intercalate :
    ∀ (lines : List (List Char)), lines ≠ [] →
      (∀ l ∈ lines, ('\r') ∉ l) →
      ∀ fuel, (List.intercalate CRLF lines).length ≤ fuel →
        splitOnCRLFF fuel (List.intercalate CRLF lines) = lines := by
  intro lines
  induction lines with
  | nil => intro h; cases h rfl
  | cons l t ih =>
    intro _ hgood fuel hfuel
    cases t with
    | nil =>
      rw [intercalate_singleton] at hfuel ⊢
      have hnone := findPattern_CRLF_none l (hgood l (by simp))
      cases fuel with
      | zero => rfl
      | succ f => simp [splitOnCRLFF, hnone]
    | cons l2 t2 =>
      rw [intercalate_cons₂] at hfuel ⊢
      have hfp : findPattern
          (l ++ (CRLF ++ List.intercalate CRLF (l2 :: t2))) CRLF =
          some l.length := by
        rw [findPattern_CRLF_append l _ (hgood l (by simp)),
          findPattern_CRLF_self]
        simp
      have hlen2 : 2 ≤ (CRLF ++ List.intercalate CRLF (l2 :: t2)).length := by
        simp [CRLF]
      cases fuel with
      | zero =>
        exfalso
        simp only [List.length_append, CRLF, List.length_cons,
          List.length_nil] at hfuel
        omega
      | succ f =>
        rw [splitOnCRLFF, hfp]
        dsimp only
        have htake : (l ++ (CRLF ++ List.intercalate CRLF (l2 :: t2))).take
            l.length = l := List.take_left l _
        have hgrp : l ++ (CRLF ++ List.intercalate CRLF (l2 :: t2)) =
            (l ++ CRLF) ++ List.intercalate CRLF (l2 :: t2) := by
          simp [List.append_assoc]
        have hdrop : (l ++ (CRLF ++ List.intercalate CRLF (l2 :: t2))).drop
            (l.length + 2) = List.intercalate CRLF (l2 :: t2) := by
          rw [hgrp]
          have hl2 : (l ++ CRLF).length = l.length + 2 := by simp [CRLF]
          rw [← hl2, List.drop_left]
        rw [htake, hdrop]
        have hrec := ih (by simp)
          (fun x hx => hgood x (List.mem_cons_of_mem _ hx)) f
          (by
            simp only [List.length_append, CRLF, List.length_cons,
              List.length_nil] at hfuel ⊢
            omega)
        rw [hrec]

theorem takeWhile_append_stop (p : Char → Bool) :
    ∀ (k : List Char) (c : Char) (v : List Char),
      (∀ x ∈ k, p x = true) → p c = false →
      (k ++ c :: v).takeWhile p = k := by
  intro k
  induction k with
  | nil =>
    intro c v _ hc
    simp [List.takeWhile_cons, hc]
  | cons a k1 ih =>
    intro c v hall hc
    rw [List.cons_append, List.takeWhile_cons,
      hall a (List.mem_cons_self a k1), if_pos rfl,
      ih c v (fun x hx => hall x (List.mem_cons_of_mem a hx)) hc]

theorem takeWhile_all (p : Char → Bool) :
    ∀ (v : List Char), (∀ x ∈ v, p x = true) → v.takeWhile p = v := by
  intro v
  induction v with
  | nil => intro _; rfl
  | cons a v1 ih =>
    intro hall
    rw [List.takeWhile_cons, hall a (List.mem_cons_self a v1), if_pos rfl,
      ih fun x hx => hall x (List.mem_cons_of_mem a hx)]

theorem splitLimit2Colon_headerLine (k v : List Char)
    (hk : (':') ∉ k) (hv : (':') ∉ v) :
    splitLimit2Colon (k ++ ':' :: v) = (k, some v) := by
  have htw : (k ++ ':' :: v).takeWhile (· != ':') = k :=
    takeWhile_append_stop _ k ':' v
      (fun x hx => by
        simp only [bne_iff_ne, ne_eq, decide_eq_true_eq]
        intro hxx
        exact hk (hxx ▸ hx))
      (by simp)
  simp only [splitLimit2Colon, htw]
  rw [if_neg (by simp)]
  have hdrop : (k ++ ':' :: v).drop (k.length + 1) = v := by
    have hgrp : k ++ ':' :: v = (k ++ [':']) ++ v := by simp
    rw [hgrp]
    have hl : (k ++ [':']).length = k.length + 1 := by simp
    rw [← hl, List.drop_left]
  rw [hdrop]
  rw [takeWhile_all _ v (fun x hx => by
    simp only [bne_iff_ne, ne_eq, decide_eq_true_eq]
    intro hxx
    exact hv (hxx ▸ hx))]

theorem upsert_append (m : List (List Char × List Char)) (k v : List Char)
    (hfresh : ∀ p ∈ m, p.1 ≠ k) : upsert m k v = m ++ [(k, v)] := by
  rw [upsert, if_neg]
  simp only [List.any_eq_true, not_exists, not_and]
  intro p hp
  simp only [beq_iff_eq]
  exact hfresh p hp

theorem parseFold_roundtrip :
    ∀ (hs : List (List Char × List Char))
      (m : List (List Char × List Char)),
      (∀ kv ∈ hs, goodKV kv) → (hs.map Prod.fst).Nodup →
      (∀ kv ∈ hs, ∀ p ∈ m, p.1 ≠ kv.1) →
      (hs.map headerLine).foldl
        (fun m line =>
          match splitLimit2Colon line with
          | (_, none) => m
          | (k, some v) =>
            if k ≠ [] ∧ v ≠ [] then upsert m (trim k) (trim v) else m)
        m = m ++ hs := by
  intro hs
  induction hs with
  | nil =>
    intro m _ _ _
    simp
  | cons kv t ih =>
    intro m hgood hnodup hfresh
    simp only [List.map_cons, List.foldl_cons]
    obtain ⟨hk1, hk2, hk3, hk4, _, _, htr1, htr2⟩ :=
      hgood kv (List.mem_cons_self kv t)
    have hsplit := splitLimit2Colon_headerLine kv.1 kv.2 hk3 hk4
    rw [show headerLine kv = kv.1 ++ ':' :: kv.2 from rfl, hsplit]
    dsimp only
    rw [if_pos ⟨hk1, hk2⟩, htr1, htr2]
    rw [upsert_append m kv.1 kv.2
      (fun p hp => hfresh kv (List.mem_cons_self kv t) p hp)]
    rw [ih (m ++ [(kv.1, kv.2)])
      (fun x hx => hgood x (List.mem_cons_of_mem kv hx))
      (by
        simp only [List.map_cons, List.nodup_cons] at hnodup
        exact hnodup.2)
      (by
        intro x hx p hp
        rcases List.mem_append.mp hp with hp | hp
        · exact hfresh x (List.mem_cons_of_mem kv hx) p hp
        · rcases List.mem_singleton.mp hp with rfl
          intro he
          simp only [List.map_cons, List.nodup_cons] at hnodup
          exact hnodup.1 (he ▸ List.mem_map_of_mem Prod.fst hx))]
    simp

theorem intercalate_blank_body :
    ∀ (L : List (List Char)) (b : List Char), L ≠ [] →
      List.intercalate CRLF (L ++ [[], b]) =
        List.intercalate CRLF L ++ ('\r' :: '\n' :: '\r' :: '\n' :: b) := by
  intro L
  induction L with
  | nil => intro b h; cases h rfl
  | cons l t ih =>
    intro b _
    cases t with
    | nil =>
      rw [show ([l] ++ [[], b] : List (List Char)) = [l, [], b] from rfl]
      rw [intercalate_cons₂, intercalate_cons₂, intercalate_singleton,
        intercalate_singleton]
      simp [CRLF]
    | cons l2 t2 =>
      rw [show ((l :: l2 :: t2) ++ [[], b] : List (List Char)) =
        l :: l2 :: (t2 ++ [[], b]) from rfl]
      rw [intercalate_cons₂]
      rw [show (l2 :: (t2 ++ [[], b]) : List (List Char)) =
        (l2 :: t2) ++ [[], b] from rfl]
      rw [ih b (by simp)]
      rw [intercalate_cons₂]
      simp [List.append_assoc]

/-- C6 counterexample: encoding the single header Path:x with body "b"
and decoding yields the original header map but the body "\r\nb" — the
decoder drops only 2 of the 4 delimiter characters
(`data.slice(headerEnd + 2)`), so the returned body carries a leading
CRLF and is not the original body. -/
theorem text_frame_roundtrip_cex :
    decodeTextFrame
        (encodeTextFrame [(['P', 'a', 't', 'h'], ['x'])] ['b']) =
      Except.ok ([(['P', 'a', 't', 'h'], ['x'])], ['\r', '\n', 'b']) ∧
    (['\r', '\n', 'b'] : List Char) ≠ ['b'] :=
  ⟨rfl, by decide⟩

/-- C6 (amended): for every text frame built by the outbound encoder
(CRLF-joined Key:Value header lines, a blank line, then the body) from
well-formed headers — non-empty keys and values that are colon-free,
CR-free, invariant under trimming, with pairwise distinct keys —
decoding with the inbound text-frame decoder yields exactly the
original headers map, and the original body prefixed with one extra
CRLF (the decoder's body starts two bytes after the start of the
CRLF-CRLF delimiter rather than four). -/
theorem text_frame_roundtrip (hs : List (List Char × List Char))
    (body : List Char) (hne : hs ≠ []) (hgood : ∀ kv ∈ hs, goodKV kv)
    (hnodup : (hs.map Prod.fst).Nodup) :
    decodeTextFrame (encodeTextFrame hs body) =
      Except.ok (hs, '\r' :: '\n' :: body) := by
  have hlne : hs.map headerLine ≠ [] := by
    intro h
    exact hne (List.map_eq_nil_iff.mp h)
  have hlgood : ∀ l ∈ hs.map headerLine, ('\r') ∉ l ∧ l ≠ [] := by
    intro l hl
    obtain ⟨kv, hkv, rfl⟩ := List.mem_map.mp hl
    obtain ⟨hk1, _, _, _, hr1, hr2, _, _⟩ := hgood kv hkv
    constructor
    · simp only [headerLine, List.mem_append, List.mem_cons]
      rintro (h | h | h)
      · exact hr1 h
      · exact absurd h (by decide)
      · exact hr2 h
    · simp [headerLine]
  have hshape : encodeTextFrame hs body =
      List.intercalate CRLF (hs.map headerLine) ++
        ('\r' :: '\n' :: '\r' :: '\n' :: body) := by
    rw [encodeTextFrame, intercalate_blank_body (hs.map headerLine) body hlne]
  have hfp := findPattern_delim_intercalate (hs.map headerLine) hlne
    hlgood body
  have htake : (List.intercalate CRLF (hs.map headerLine) ++
      ('\r' :: '\n' :: '\r' :: '\n' :: body)).take
        (List.intercalate CRLF (hs.map headerLine)).length =
      List.intercalate CRLF (hs.map headerLine) :=
    List.take_left _ _
  have hdrop : (List.intercalate CRLF (hs.map headerLine) ++
      ('\r' :: '\n' :: '\r' :: '\n' :: body)).drop
        ((List.intercalate CRLF (hs.map headerLine)).length + 2) =
      '\r' :: '\n' :: body := by
    have hgrp : List.intercalate CRLF (hs.map headerLine) ++
        ('\r' :: '\n' :: '\r' :: '\n' :: body) =
        (List.intercalate CRLF (hs.map headerLine) ++ ['\r', '\n']) ++
          ('\r' :: '\n' :: body) := by
      simp
    rw [hgrp]
    have hl : (List.intercalate CRLF (hs.map headerLine) ++
        ['\r', '\n']).length =
        (List.intercalate CRLF (hs.map headerLine)).length + 2 := by
      simp
    rw [← hl, List.drop_left]
  have hsplit : splitOnCRLF (List.intercalate CRLF (hs.map headerLine)) =
      hs.map headerLine := by
    rw [splitOnCRLF]
    exact splitOnCRLFF_intercalate (hs.map headerLine) hlne
      (fun l hl => (hlgood l hl).1) _ le_rfl
  have hparse : parseHeaderLines (hs.map headerLine) = hs := by
    rw [parseHeaderLines]
    rw [parseFold_roundtrip hs [] hgood hnodup (by simp)]
    simp
  rw [hshape, decodeTextFrame, hfp]
  dsimp only
  rw [htake, hdrop, hsplit, hparse]

theorem text_frame_roundtrip_witness :
    decodeTextFrame (encodeTextFrame [(['T', 'o'], ['q'])] ['z']) =
      Except.ok ([(['T', 'o'], ['q'])], '\r' :: '\n' :: ['z']) :=
  text_frame_roundtrip [(['T', 'o'], ['q'])] ['z'] (by decide)
    (by
      intro kv hkv
      simp only [List.mem_singleton] at hkv
      subst hkv
      simp only [goodKV]
      decide)
    (by decide)

end EdgeTTS
